import Mathlib

/-!
# Verification of the `passivized_htpasswd` library

A shallow embedding of the library's two source files (`src/lib.rs`,
`src/errors.rs`) together with models of the external cryptographic
collaborators (the `bcrypt` crate and the `pwhash` crate), which are outside
this repository and are therefore modelled from their documented contracts as
stated in the specification.

The embedding represents:
* the credential table (`Htpasswd`, backed by an insertion-ordered
  association list mirroring `indexmap::IndexMap`),
* the algorithm selection enum (`Algo`),
* the hashing dispatch (`Htpasswd.set_with` / `Htpasswd.set`),
* the test-only verifier (`Htpasswd.verify`),
* serialization (`Htpasswd.toString`) and the single-write file output
  (`write_to_path`), with an explicit event trace for I/O reasoning.

Randomness and the abstract digest computations of the external primitives are
modelled by an explicit environment (`Prim`) passed to each call.
-/

namespace Passivized

/-! ## Decimal rendering and parsing of naturals

The external crates render cost/rounds values in decimal (Rust `Display` /
`format!`).  We model the decimal rendering with an executable digits
function and prove the parse round-trip needed to reason about the
self-describing hash strings. -/

/-- The decimal digit character for a digit value; values ten and above
(never produced) map to `'9'`. -/
def digitChar (d : Nat) : Char :=
  if d = 0 then '0' else if d = 1 then '1' else if d = 2 then '2'
  else if d = 3 then '3' else if d = 4 then '4' else if d = 5 then '5'
  else if d = 6 then '6' else if d = 7 then '7' else if d = 8 then '8'
  else '9'

/-- Inverse of `digitChar` on actual digit characters. -/
def charDigit? (c : Char) : Option Nat :=
  if c = '0' then some 0 else if c = '1' then some 1 else if c = '2' then some 2
  else if c = '3' then some 3 else if c = '4' then some 4 else if c = '5' then some 5
  else if c = '6' then some 6 else if c = '7' then some 7 else if c = '8' then some 8
  else if c = '9' then some 9 else none

theorem charDigit_digitChar {d : Nat} (h : d < 10) : charDigit? (digitChar d) = some d := by
  interval_cases d <;> decide

theorem digitChar_ne_dollar (d : Nat) : digitChar d ≠ '$' := by
  unfold digitChar; split_ifs <;> decide

/-- Fuel-driven decimal digit list (most significant first); the fuel is
always sufficient when it exceeds the number being rendered. -/
def natDigitsAux : Nat → Nat → List Char
  | 0, _ => []
  | fuel + 1, n =>
    if n < 10 then [digitChar n]
    else natDigitsAux fuel (n / 10) ++ [digitChar (n % 10)]

/-- Decimal digit list of a natural number, most significant digit first. -/
def natDigits (n : Nat) : List Char :=
  natDigitsAux (n + 1) n

/-- Decimal rendering of a natural number, as the Rust `Display` instance
for unsigned integers produces it. -/
def natToString (n : Nat) : String :=
  ⟨natDigits n⟩

/-- Left-to-right accumulation of decimal digits. -/
def parseDigitsAux : Nat → List Char → Option Nat
  | acc, [] => some acc
  | acc, c :: cs =>
    match charDigit? c with
    | some d => parseDigitsAux (acc * 10 + d) cs
    | none => none

/-- Parse a nonempty all-digits character list as a natural number. -/
def parseDigits : List Char → Option Nat
  | [] => none
  | c :: cs => parseDigitsAux 0 (c :: cs)

theorem parseDigitsAux_append (a b : List Char) (acc : Nat) :
    parseDigitsAux acc (a ++ b) =
      match parseDigitsAux acc a with
      | some m => parseDigitsAux m b
      | none => none := by
  induction a generalizing acc with
  | nil => simp [parseDigitsAux]
  | cons c cs ih =>
    simp only [List.cons_append, parseDigitsAux]
    cases charDigit? c with
    | some d => exact ih (acc * 10 + d)
    | none => rfl

theorem natDigitsAux_ne_nil {fuel n : Nat} (h : n < fuel) :
    natDigitsAux fuel n ≠ [] := by
  cases fuel with
  | zero => omega
  | succ f =>
    unfold natDigitsAux
    split
    · simp
    · simp

theorem parseDigitsAux_natDigitsAux {fuel : Nat} :
    ∀ {n : Nat}, n < fuel → ∀ acc : Nat,
      parseDigitsAux acc (natDigitsAux fuel n) =
        some (acc * 10 ^ (natDigitsAux fuel n).length + n) := by
  induction fuel with
  | zero => intro n h; omega
  | succ f ih =>
    intro n h acc
    unfold natDigitsAux
    split
    · next hlt =>
      simp [parseDigitsAux, charDigit_digitChar hlt]
    · next hge =>
      have hn : 10 ≤ n := by omega
      have hdiv : n / 10 < f := by
        have h1 : n / 10 < n := Nat.div_lt_self (by omega) (by omega)
        omega
      rw [parseDigitsAux_append]
      rw [ih hdiv acc]
      have hmod : n % 10 < 10 := Nat.mod_lt _ (by omega)
      simp only [parseDigitsAux, charDigit_digitChar hmod]
      have hlen : (natDigitsAux f (n / 10) ++ [digitChar (n % 10)]).length
          = (natDigitsAux f (n / 10)).length + 1 := by simp
      rw [hlen]
      congr 1
      have : (acc * 10 ^ (natDigitsAux f (n / 10)).length + n / 10) * 10 + n % 10
          = acc * 10 ^ ((natDigitsAux f (n / 10)).length + 1) + n := by
        rw [pow_succ]
        have := Nat.div_add_mod n 10
        ring_nf
        omega
      omega

theorem parseDigits_natDigits (n : Nat) : parseDigits (natDigits n) = some n := by
  have hne : natDigits n ≠ [] := natDigitsAux_ne_nil (Nat.lt_succ_self n)
  have h := @parseDigitsAux_natDigitsAux (n + 1) n (Nat.lt_succ_self n) 0
  obtain ⟨c, cs, heq⟩ := List.exists_cons_of_ne_nil hne
  rw [show natDigits n = natDigitsAux (n + 1) n from rfl] at heq
  rw [show natDigits n = natDigitsAux (n + 1) n from rfl, heq]
  rw [heq] at h
  simpa [parseDigits] using h

theorem natDigitsAux_no_dollar {fuel : Nat} :
    ∀ {n : Nat}, '$' ∉ natDigitsAux fuel n := by
  induction fuel with
  | zero => intro n; simp [natDigitsAux]
  | succ f ih =>
    intro n
    unfold natDigitsAux
    split
    · intro hmem
      exact digitChar_ne_dollar _ (List.mem_singleton.mp hmem).symm
    · intro hmem
      rcases List.mem_append.mp hmem with h | h
      · exact ih h
      · rcases List.mem_singleton.mp h with h
        exact digitChar_ne_dollar _ h.symm

theorem natDigits_no_dollar (n : Nat) : '$' ∉ natDigits n :=
  natDigitsAux_no_dollar

/-! ## Splitting on the `$` separator of the modular crypt format -/

/-- Split a character list at every `'$'`; a list with `k` dollars yields
`k + 1` fields.  This models how the crypt-format fields of a hash string
are delimited. -/
def splitDollar : List Char → List (List Char)
  | [] => [[]]
  | c :: cs =>
    match splitDollar cs with
    | [] => [[]]
    | h :: t => if c = '$' then [] :: h :: t else (c :: h) :: t

theorem splitDollar_ne_nil (cs : List Char) : splitDollar cs ≠ [] := by
  cases cs with
  | nil => simp [splitDollar]
  | cons c cs =>
    simp only [splitDollar]
    cases splitDollar cs with
    | nil => simp
    | cons h t =>
      by_cases hc : c = '$' <;> simp [hc]

theorem splitDollar_dollar (cs : List Char) :
    splitDollar ('$' :: cs) = [] :: splitDollar cs := by
  simp only [splitDollar]
  cases h : splitDollar cs with
  | nil => exact absurd h (splitDollar_ne_nil cs)
  | cons a t => simp

theorem splitDollar_append (a b : List Char) (ha : '$' ∉ a) :
    splitDollar (a ++ b) = (a ++ (splitDollar b).headI) :: (splitDollar b).tail := by
  induction a with
  | nil =>
    simp only [List.nil_append]
    cases h : splitDollar b with
    | nil => exact absurd h (splitDollar_ne_nil b)
    | cons x t => simp
  | cons c cs ih =>
    have hc : c ≠ '$' := fun h => ha (h ▸ List.mem_cons_self c cs)
    have hcs : '$' ∉ cs := fun h => ha (List.mem_cons_of_mem c h)
    simp only [List.cons_append, splitDollar, List.append_eq]
    rw [ih hcs]
    simp [hc]

theorem splitDollar_no_dollar (a : List Char) (ha : '$' ∉ a) :
    splitDollar a = [a] := by
  have := splitDollar_append a [] ha
  simpa [splitDollar] using this

/-! ## String helpers -/

theorem string_data_append (s t : String) : (s ++ t).data = s.data ++ t.data := by
  cases s; cases t; rfl

theorem string_mk_data (s : String) : String.mk s.data = s := by
  cases s; rfl

/-! ## Insertion-ordered map (model of `indexmap::IndexMap<String, String>`)

`IndexMap::insert` keeps an existing key at its place in the order and
updates its value; a new key is pushed to the end.  `IndexMap::get` looks a
key up.  The table invariant (no duplicate keys) makes the first match the
only match. -/

/-- `IndexMap::insert`: update the value of an existing key in place,
otherwise append the new pair at the end. -/
def indexInsert : List (String × String) → String → String → List (String × String)
  | [], k, v => [(k, v)]
  | e :: es, k, v => if e.1 = k then (e.1, v) :: es else e :: indexInsert es k v

/-- `IndexMap::get`: the value stored for a key, if present. -/
def indexGet? (es : List (String × String)) (k : String) : Option String :=
  (es.find? (fun e => e.1 == k)).map (fun e => e.2)

theorem find?_key_cons_pos (e : String × String) (es : List (String × String)) (k : String)
    (h : e.1 = k) : List.find? (fun x => x.1 == k) (e :: es) = some e :=
  List.find?_cons_of_pos _ (beq_iff_eq.mpr h)

theorem find?_key_cons_neg (e : String × String) (es : List (String × String)) (k : String)
    (h : e.1 ≠ k) :
    List.find? (fun x => x.1 == k) (e :: es) = List.find? (fun x => x.1 == k) es :=
  List.find?_cons_of_neg _ (fun hb => h (beq_iff_eq.mp hb))

theorem indexGet?_eq_none_iff (es : List (String × String)) (k : String) :
    indexGet? es k = none ↔ k ∉ es.map Prod.fst := by
  induction es with
  | nil => simp [indexGet?]
  | cons e es ih =>
    by_cases h : e.1 = k
    · simp only [indexGet?, List.map_cons, List.mem_cons]
      rw [find?_key_cons_pos e es k h]
      simp [h]
    · simp only [indexGet?, List.map_cons, List.mem_cons]
      rw [find?_key_cons_neg e es k h]
      simp only [indexGet?] at ih
      rw [ih]
      constructor
      · intro hk hc
        rcases hc with hc | hc
        · exact h hc.symm
        · exact hk hc
      · intro hk hc
        exact hk (Or.inr hc)

theorem indexInsert_keys (es : List (String × String)) (k v : String) :
    (indexInsert es k v).map Prod.fst =
      if k ∈ es.map Prod.fst then es.map Prod.fst else es.map Prod.fst ++ [k] := by
  induction es with
  | nil => simp [indexInsert]
  | cons e es ih =>
    by_cases h : e.1 = k
    · simp [indexInsert, h]
    · simp only [indexInsert, if_neg h, List.map_cons, ih]
      have : (k ∈ e.1 :: es.map Prod.fst) ↔ (k ∈ es.map Prod.fst) := by
        simp only [List.mem_cons]
        constructor
        · intro hk; rcases hk with hk | hk
          · exact absurd hk.symm h
          · exact hk
        · exact Or.inr
      by_cases hk : k ∈ es.map Prod.fst
      · simp [hk, this]
      · simp [hk, this]

theorem indexInsert_get_self (es : List (String × String)) (k v : String) :
    indexGet? (indexInsert es k v) k = some v := by
  induction es with
  | nil =>
    simp only [indexInsert, indexGet?]
    rw [find?_key_cons_pos (k, v) [] k rfl]
    rfl
  | cons e es ih =>
    by_cases h : e.1 = k
    · simp only [indexInsert, if_pos h, indexGet?]
      rw [find?_key_cons_pos (e.1, v) es k h]
      rfl
    · simp only [indexInsert, if_neg h, indexGet?]
      rw [find?_key_cons_neg e (indexInsert es k v) k h]
      exact ih

theorem indexInsert_get_other (es : List (String × String)) (k v k' : String)
    (h : k' ≠ k) : indexGet? (indexInsert es k v) k' = indexGet? es k' := by
  induction es with
  | nil =>
    simp only [indexInsert, indexGet?]
    rw [find?_key_cons_neg (k, v) [] k' (fun hk => h hk.symm)]
  | cons e es ih =>
    by_cases he : e.1 = k
    · have he1 : e.1 ≠ k' := fun hk => h (by rw [← hk, he])
      simp only [indexInsert, if_pos he, indexGet?]
      rw [find?_key_cons_neg (e.1, v) es k' he1, find?_key_cons_neg e es k' he1]
    · simp only [indexInsert, if_neg he, indexGet?]
      by_cases he' : e.1 = k'
      · rw [find?_key_cons_pos e (indexInsert es k v) k' he',
          find?_key_cons_pos e es k' he']
      · rw [find?_key_cons_neg e (indexInsert es k v) k' he',
          find?_key_cons_neg e es k' he']
        exact ih

theorem indexInsert_nodup_keys (es : List (String × String)) (k v : String)
    (h : (es.map Prod.fst).Nodup) : ((indexInsert es k v).map Prod.fst).Nodup := by
  rw [indexInsert_keys]
  by_cases hk : k ∈ es.map Prod.fst
  · simpa [hk] using h
  · simp only [if_neg hk]
    simpa [List.nodup_append, hk] using h

theorem map_update_of_not_mem (es : List (String × String)) (k v : String)
    (h : k ∉ es.map Prod.fst) :
    es.map (fun e => if e.1 = k then (e.1, v) else e) = es := by
  induction es with
  | nil => rfl
  | cons e es ih =>
    simp only [List.map_cons, List.mem_cons, not_or] at h ⊢
    rw [if_neg (fun hk => h.1 hk.symm), ih h.2]

/-- With no duplicate keys, re-inserting a present key rewrites exactly that
entry in place, leaving every position and every other entry unchanged. -/
theorem indexInsert_of_mem (es : List (String × String)) (k v : String)
    (hnd : (es.map Prod.fst).Nodup) (h : k ∈ es.map Prod.fst) :
    indexInsert es k v = es.map (fun e => if e.1 = k then (e.1, v) else e) := by
  induction es with
  | nil => simp at h
  | cons e es ih =>
    simp only [List.map_cons, List.nodup_cons] at hnd
    by_cases he : e.1 = k
    · simp only [indexInsert, if_pos he, List.map_cons, if_pos he]
      rw [map_update_of_not_mem es k v (he ▸ hnd.1)]
    · have hmem : k ∈ es.map Prod.fst := by
        rw [List.map_cons] at h
        rcases List.mem_cons.mp h with hk | hk
        · exact absurd hk.symm he
        · exact hk
      simp only [indexInsert, if_neg he, List.map_cons, if_neg he]
      rw [ih hnd.2 hmem]

/-! ## Constants of the external crates

Modelled from the spec: the bcrypt and SHA-512-crypt primitives are external
collaborators with documented cost/rounds ranges; these are the published
constants of the `bcrypt` crate (`DEFAULT_COST`, cost range 4..=31) and the
`pwhash` crate (`bcrypt::MIN_COST`, `sha512_crypt::MIN_ROUNDS`,
`MAX_ROUNDS`, `DEFAULT_ROUNDS`). -/

/-- `bcrypt::DEFAULT_COST` -/
def DEFAULT_COST : Nat := 12

/-- Least cost the bcrypt primitive accepts (`bcrypt::MIN_COST`). -/
def BCRYPT_MIN_COST : Nat := 4

/-- Greatest cost the bcrypt primitive accepts (`bcrypt::MAX_COST`). -/
def BCRYPT_MAX_COST : Nat := 31

/-- `pwhash::bcrypt::MIN_COST`, the constant `Algo::BcryptMinCost` resolves to. -/
def PWHASH_BCRYPT_MIN_COST : Nat := 4

/-- `pwhash::sha512_crypt::MIN_ROUNDS` -/
def SHA512_MIN_ROUNDS : Nat := 1000

/-- `pwhash::sha512_crypt::MAX_ROUNDS` -/
def SHA512_MAX_ROUNDS : Nat := 999999999

/-- `pwhash::sha512_crypt::DEFAULT_ROUNDS` -/
def SHA512_DEFAULT_ROUNDS : Nat := 5000

/-! ## Algorithm selection (`enum Algo` in `src/lib.rs`) -/

/-- Hashing algorithms understood by the library (`Algo` in `src/lib.rs`).
Costs and rounds are `u32` in the source; they are represented as `Nat`
(all accepted values fit far below `2^32`, and the source performs no
arithmetic on them). -/
inductive Algo where
  /-- Use a specific bcrypt cost. -/
  | Bcrypt (cost : Nat)
  /-- Fastest, cheapest bcrypt variant. -/
  | BcryptMinCost
  /-- Use the default bcrypt cost. -/
  | BCryptDefault
  /-- Use a specific number of SHA-512-crypt rounds. -/
  | Sha512 (rounds : Nat)
  /-- Use the default number of SHA-512-crypt rounds. -/
  | Sha512Default
  /-- Fastest, cheapest SHA-512-crypt variant. -/
  | Sha512MinRounds
deriving DecidableEq

/-! ## Error types -/

/-- Modelled from the spec: failures of the external bcrypt primitive — a
requested cost outside the accepted range, or an internal failure such as
salt generation (the `bcrypt` crate's error type is foreign to the
repository; only these two failure classes are in the spec's contract). -/
inductive BcryptError where
  | CostNotAllowed (cost : Nat)
  | Internal (msg : String)
deriving DecidableEq

/-- Modelled from the spec: the rendered message of a bcrypt failure. -/
def BcryptError.message : BcryptError → String
  | .CostNotAllowed c => "Invalid Cost: " ++ natToString c
  | .Internal m => m

/-- Modelled from the spec: failures of the external SHA-512-crypt
primitive — requested rounds outside the accepted range, or an internal
failure. -/
inductive PwHashError where
  | InvalidRounds
  | Internal (msg : String)
deriving DecidableEq

/-- Modelled from the spec: the rendered message of a SHA-512-crypt failure. -/
def PwHashError.message : PwHashError → String
  | .InvalidRounds => "invalid rounds"
  | .Internal m => m

/-- The library's error enum (`HtpasswdError` in `src/errors.rs`).  The
sources declare exactly one variant, `BCrypt(BcryptError)`, together with a
`From<BcryptError>` conversion.

The `PwHash` variant is modelled from the spec: `set_with` propagates
SHA-512-crypt failures with `?`, which requires a conversion from the
`pwhash` error type into `HtpasswdError` that the given sources do not
contain; the spec folds every hashing failure into the single hashing-error
family surfaced to the caller, so that conversion is modelled as a variant
retaining the primitive's message. -/
inductive HtpasswdError where
  | BCrypt (e : BcryptError)
  | PwHash (e : PwHashError)
deriving DecidableEq

/-- The rendered message of a library error: the `thiserror` attribute in
`src/errors.rs` formats the bcrypt variant as `Bcrypt error: ` followed by
the underlying error's own message (the `PwHash` rendering is modelled from
the spec's message-retention rule). -/
def HtpasswdError.message : HtpasswdError → String
  | .BCrypt e => "Bcrypt error: " ++ e.message
  | .PwHash e => "Password hash error: " ++ e.message

/-! ## The environment of one hashing call

The external primitives draw a fresh random salt on every call and can fail
internally; their digest computations are abstract.  `Prim` packages, for one
call: the salt the RNG would produce, the abstract digest computations, and
whether the primitive fails internally. -/

/-- Modelled from the spec: the per-call environment of the external
primitives.  `bcryptSalt`/`bcryptDigest` are the 22-character encoded salt
and 31-character digest the bcrypt primitive would produce for this call;
`sha512Salt` is the fresh maximum-length salt of a SHA-512-crypt call;
`sha512Digest rounds salt password` is the (pure, deterministic) SHA-512-crypt
digest computation; `bcryptFail`/`sha512Fail` carry the message of an
internal primitive failure when one occurs. -/
structure Prim where
  bcryptSalt : String
  bcryptDigest : String
  bcryptFail : Option String
  sha512Salt : String
  sha512Digest : Nat → String → String → String
  sha512Fail : Option String

/-- The character-set guarantee of the modular crypt format: salts and
digests produced by the primitives never contain the `$` field separator. -/
def Prim.wf (pr : Prim) : Prop :=
  '$' ∉ pr.bcryptSalt.data ∧ '$' ∉ pr.bcryptDigest.data ∧
    '$' ∉ pr.sha512Salt.data ∧
    ∀ r s p, '$' ∉ (pr.sha512Digest r s p).data

/-! ## Model of the `bcrypt` crate (external collaborator)

Modelled from the spec: bcrypt hash strings follow the modular crypt format
`$<version>$<2-digit cost>$<22-char salt><31-char digest>`; the primitive
rejects costs outside `4..=31` and may fail internally. -/

/-- The version tags of the `bcrypt` crate's `Version` enum. -/
inductive Version where
  | TwoA
  | TwoB
  | TwoX
  | TwoY
deriving DecidableEq

/-- The textual tag of a bcrypt version. -/
def Version.tag : Version → String
  | .TwoA => "2a"
  | .TwoB => "2b"
  | .TwoX => "2x"
  | .TwoY => "2y"

/-- The parts of a computed bcrypt hash (`bcrypt::HashParts`): cost, encoded
salt and encoded digest. -/
structure HashParts where
  cost : Nat
  salt : String
  hash : String

/-- The cost rendered as at least two decimal digits, as Rust's `{:02}`
format specifier produces it. -/
def padCost (c : Nat) : String :=
  if (natDigits c).length < 2 then ⟨'0' :: natDigits c⟩ else ⟨natDigits c⟩

/-- `HashParts::format_for_version`: render a computed hash in modular crypt
format under an explicitly chosen version tag. -/
def format_for_version (p : HashParts) (v : Version) : String :=
  "$" ++ v.tag ++ "$" ++ padCost p.cost ++ "$" ++ p.salt ++ p.hash

/-- `bcrypt::hash_with_result`: draw a salt (failing internally when the
environment says so), reject a cost outside the accepted range, and
otherwise produce the hash parts carrying exactly the requested cost (the
digest for the given password is the environment's abstract `bcryptDigest`). -/
def hash_with_result (pr : Prim) (password : String) (cost : Nat) :
    Except BcryptError HashParts :=
  match pr.bcryptFail with
  | some m => .error (.Internal m)
  | none =>
    if cost < BCRYPT_MIN_COST ∨ BCRYPT_MAX_COST < cost then
      .error (.CostNotAllowed cost)
    else
      .ok ⟨cost, pr.bcryptSalt, pr.bcryptDigest⟩

/-! ## Model of `pwhash::sha512_crypt` (external collaborator)

Modelled from the spec: SHA-512-crypt hash strings follow
`$6$rounds=<n>$<salt>$<digest>`, with the rounds clause omitted when the
family's baked-in default round count is used; the primitive rejects rounds
outside `1000..=999999999`, draws a fresh maximum-length random salt when no
salt is supplied, and may fail internally. -/

/-- The SHA-512-crypt hash string for given rounds, salt and digest. -/
def sha512Format (rounds : Nat) (salt digest : String) : String :=
  if rounds = SHA512_DEFAULT_ROUNDS then
    "$6$" ++ salt ++ "$" ++ digest
  else
    "$6$rounds=" ++ natToString rounds ++ "$" ++ salt ++ "$" ++ digest

/-- `pwhash::sha512_crypt::hash_with` with `HashSetup` rounds `Some rounds`
and salt `None` (a fresh random maximum-length salt). -/
def sha512_hash_with (pr : Prim) (rounds : Nat) (password : String) :
    Except PwHashError String :=
  if rounds < SHA512_MIN_ROUNDS ∨ SHA512_MAX_ROUNDS < rounds then
    .error .InvalidRounds
  else
    match pr.sha512Fail with
    | some m => .error (.Internal m)
    | none => .ok (sha512Format rounds pr.sha512Salt
        (pr.sha512Digest rounds pr.sha512Salt password))

/-- `pwhash::sha512_crypt::hash`: hash with the default round count and a
fresh random maximum-length salt. -/
def sha512_hash (pr : Prim) (password : String) : Except PwHashError String :=
  match pr.sha512Fail with
  | some m => .error (.Internal m)
  | none => .ok (sha512Format SHA512_DEFAULT_ROUNDS pr.sha512Salt
      (pr.sha512Digest SHA512_DEFAULT_ROUNDS pr.sha512Salt password))

/-- Parse a SHA-512-crypt hash string back into rounds, salt and digest, as
the primitive's verifier does before recomputing the digest. -/
def parseSha512 (s : String) : Option (Nat × String × String) :=
  match splitDollar s.data with
  | [[], ['6'], salt, digest] => some (SHA512_DEFAULT_ROUNDS, ⟨salt⟩, ⟨digest⟩)
  | [[], ['6'], clause, salt, digest] =>
    if clause.take 7 = ['r', 'o', 'u', 'n', 'd', 's', '='] then
      match parseDigits (clause.drop 7) with
      | some r => some (r, ⟨salt⟩, ⟨digest⟩)
      | none => none
    else none
  | _ => none

/-- `pwhash::sha512_crypt::verify`: parse the stored hash, recompute the
digest for the candidate password with the stored rounds and salt, and
compare; a string that does not parse as a SHA-512-crypt hash never
verifies. -/
def sha512_verify (pr : Prim) (password hash : String) : Bool :=
  match parseSha512 hash with
  | some (rounds, salt, digest) => digest == pr.sha512Digest rounds salt password
  | none => false

/-! ## The credential table (`struct Htpasswd` in `src/lib.rs`) -/

/-- The credential table: an insertion-ordered mapping from username to
encrypted password. -/
structure Htpasswd where
  entries : List (String × String)
deriving DecidableEq

/-- `Htpasswd::new` (via `Default`): the empty table. -/
def Htpasswd.new : Htpasswd := ⟨[]⟩

/-- Measure for the recursive resolution in `set_with`: the default/min
variants resolve to a fully-specified variant in one recursive call. -/
def algoWeight : Algo → Nat
  | .Bcrypt _ => 0
  | .Sha512 _ => 0
  | _ => 1

/-- `Htpasswd::set_with`: hash the password according to the chosen
algorithm and store/overwrite the entry.  The source mutates `&mut self`
and returns `Result<(), HtpasswdError>`; the embedding returns the result
together with the table the call leaves behind (the input table itself on
an early error return).  The `BCryptDefault`, `BcryptMinCost` and
`Sha512MinRounds` arms re-enter `set_with` with the fully-specified
variant, exactly as the source's `return self.set_with(...)` does; the
`Bcrypt` arm formats the computed hash explicitly for version `2a`; the
`Sha512Default` arm calls the primitive's default-rounds entry point
directly. -/
def Htpasswd.set_with (pr : Prim) (t : Htpasswd) :
    Algo → String → String → Except HtpasswdError Unit × Htpasswd
  | .Bcrypt cost, username, password =>
    match hash_with_result pr password cost with
    | .error e => (.error (.BCrypt e), t)
    | .ok parts =>
      (.ok (), ⟨indexInsert t.entries username (format_for_version parts .TwoA)⟩)
  | .BCryptDefault, username, password =>
    t.set_with pr (.Bcrypt DEFAULT_COST) username password
  | .BcryptMinCost, username, password =>
    t.set_with pr (.Bcrypt PWHASH_BCRYPT_MIN_COST) username password
  | .Sha512 rounds, username, password =>
    match sha512_hash_with pr rounds password with
    | .error e => (.error (.PwHash e), t)
    | .ok encrypted => (.ok (), ⟨indexInsert t.entries username encrypted⟩)
  | .Sha512Default, username, password =>
    match sha512_hash pr password with
    | .error e => (.error (.PwHash e), t)
    | .ok encrypted => (.ok (), ⟨indexInsert t.entries username encrypted⟩)
  | .Sha512MinRounds, username, password =>
    t.set_with pr (.Sha512 SHA512_MIN_ROUNDS) username password
termination_by a _ _ => algoWeight a
decreasing_by all_goals simp [algoWeight]

/-- `Htpasswd::set`: hash with the default algorithm (bcrypt at the default
cost) and store/overwrite the entry. -/
def Htpasswd.set (pr : Prim) (t : Htpasswd) (username password : String) :
    Except HtpasswdError Unit × Htpasswd :=
  t.set_with pr .BCryptDefault username password

/-- `Htpasswd::verify` (private, test-only): look the username up and check
the stored hash with the SHA-512-crypt verifier; an unknown username is
reported as `false`, not as an error. -/
def Htpasswd.verify (pr : Prim) (t : Htpasswd) (username password : String) : Bool :=
  match indexGet? t.entries username with
  | some hashed => sha512_verify pr password hashed
  | none => false

/-- `ToString for Htpasswd`: render each entry in table order as
`username`, `:`, `hash`, newline, appended onto a growing string. -/
def Htpasswd.toString (t : Htpasswd) : String :=
  t.entries.foldl (fun result e => result ++ e.1 ++ ":" ++ e.2 ++ "\n") ""

/-- The serialization format as the spec words it: for each entry in table
order the line `username` + `:` + `hash` + newline, concatenated with no
header, footer or trailing content. -/
def specSerialize (t : Htpasswd) : String :=
  String.join (t.entries.map (fun e => e.1 ++ ":" ++ e.2 ++ "\n"))

/-! ## The filesystem and `write_to_path`

The filesystem is modelled explicitly so the write can be observed: a store
of files plus, per path, an optional failure (an unwritable path).  Every
write attempt is recorded as an event, which makes "performs exactly one
file write" a provable statement. -/

/-- An I/O failure surfaced by the filesystem (`std::io::Error`), retaining
its message. -/
structure IoError where
  msg : String
deriving DecidableEq

/-- An observable I/O action: one whole-file write attempt of the given
content at the given path. -/
inductive IoEvent where
  | fileWrite (path content : String)
deriving DecidableEq

/-- The filesystem: stored files, and per path an optional failure message
(an unwritable path fails with that message). -/
structure FileSystem where
  files : List (String × String)
  failure : String → Option String

/-- `std::fs::write`: attempt one whole-file write, truncating/creating the
file; an unwritable path surfaces an I/O error and stores nothing.  The
attempt itself is always recorded as one event. -/
def fsWrite (fs : FileSystem) (path content : String) :
    Except IoError Unit × FileSystem × List IoEvent :=
  match fs.failure path with
  | some m => (.error ⟨m⟩, fs, [.fileWrite path content])
  | none => (.ok (), ⟨indexInsert fs.files path content, fs.failure⟩,
      [.fileWrite path content])

/-- The outcome of `write_to_path`: result, the table after the call (the
source takes `&self`, so it is returned unchanged), the filesystem after
the call, and the I/O events performed. -/
structure WriteOutcome where
  result : Except IoError Unit
  table : Htpasswd
  fs : FileSystem
  events : List IoEvent

/-- `Htpasswd::write_to_path`: serialize the table and hand the string to
the single `std::fs::write` call. -/
def write_to_path (t : Htpasswd) (fs : FileSystem) (path : String) : WriteOutcome :=
  match fsWrite fs path t.toString with
  | (r, fs', ev) => ⟨r, t, fs', ev⟩

/-- The outcome of `set`/`set_with` observed together with the filesystem:
the source functions touch only the table, so the embedding threads the
filesystem through unchanged and records no I/O events — there is no call
to `fsWrite` in their bodies to record. -/
structure SetOutcome where
  result : Except HtpasswdError Unit
  table : Htpasswd
  fs : FileSystem
  events : List IoEvent

/-- `Htpasswd::set_with` as observed at the level of table plus filesystem. -/
def set_withFS (pr : Prim) (t : Htpasswd) (fs : FileSystem) (a : Algo)
    (username password : String) : SetOutcome :=
  match t.set_with pr a username password with
  | (r, t') => ⟨r, t', fs, []⟩

/-- `Htpasswd::set` as observed at the level of table plus filesystem. -/
def setFS (pr : Prim) (t : Htpasswd) (fs : FileSystem)
    (username password : String) : SetOutcome :=
  set_withFS pr t fs .BCryptDefault username password

/-! ## Reachable table states

A table is reachable when it is produced from `Htpasswd::new` by any
sequence of `set`/`set_with` calls (the only exposed mutations; `set` is
itself a `set_with` call). -/

inductive Reachable : Htpasswd → Prop where
  | new : Reachable Htpasswd.new
  | step (pr : Prim) (a : Algo) (username password : String) {t : Htpasswd} :
      Reachable t → Reachable (t.set_with pr a username password).2

/-! ## Proof-layer helpers -/

theorem string_eq_of_data (s t : String) (h : s.data = t.data) : s = t := by
  cases s; cases t; cases h; rfl

theorem string_append_empty (s : String) : s ++ "" = s := by
  cases s
  exact congrArg String.mk (List.append_nil _)

theorem string_append_assoc (a b c : String) : a ++ b ++ c = a ++ (b ++ c) := by
  cases a; cases b; cases c
  exact congrArg String.mk (List.append_assoc _ _ _)

theorem string_join_cons (s : String) (l : List String) :
    String.join (s :: l) = s ++ String.join l := by
  rw [String.join_eq (s :: l), String.join_eq l]
  cases s with
  | mk d => exact congrArg String.mk (by simp)

theorem foldl_serialize (es : List (String × String)) (acc : String) :
    es.foldl (fun result e => result ++ e.1 ++ ":" ++ e.2 ++ "\n") acc =
      acc ++ String.join (es.map (fun e => e.1 ++ ":" ++ e.2 ++ "\n")) := by
  induction es generalizing acc with
  | nil => simp [String.join, string_append_empty]
  | cons e es ih =>
    rw [List.foldl_cons, ih, List.map_cons, string_join_cons]
    apply string_eq_of_data
    simp [string_data_append, List.append_assoc]

/-- The serializer agrees with the per-line concatenation the spec words. -/
theorem toString_eq_specSerialize (t : Htpasswd) : t.toString = specSerialize t := by
  unfold Htpasswd.toString specSerialize
  rw [foldl_serialize]
  cases String.join (t.entries.map (fun e => e.1 ++ ":" ++ e.2 ++ "\n"))
  rfl

theorem parseDigitsAux_zero_natDigits (n : Nat) : parseDigitsAux 0 (natDigits n) = some n := by
  have h := @parseDigitsAux_natDigitsAux (n + 1) n (Nat.lt_succ_self n) 0
  simpa using h

theorem padCost_no_dollar (c : Nat) : '$' ∉ (padCost c).data := by
  unfold padCost
  split
  · intro h
    rcases List.mem_cons.mp h with h | h
    · exact absurd h (by decide)
    · exact natDigits_no_dollar c h
  · exact natDigits_no_dollar c

theorem parseDigits_padCost (c : Nat) : parseDigits (padCost c).data = some c := by
  unfold padCost
  split
  · show parseDigits ('0' :: natDigits c) = some c
    have h0 : charDigit? '0' = some 0 := by decide
    simp only [parseDigits, parseDigitsAux, h0]
    simpa using parseDigitsAux_zero_natDigits c
  · show parseDigits (natDigits c) = some c
    exact parseDigits_natDigits c

theorem splitDollar_field (a : List Char) (b : List Char) (ha : '$' ∉ a) :
    splitDollar (a ++ '$' :: b) = a :: splitDollar b := by
  rw [splitDollar_append a ('$' :: b) ha, splitDollar_dollar]
  simp

/-- Splitting the bcrypt modular crypt string into its fields. -/
theorem splitDollar_format_for_version (p : HashParts) (v : Version)
    (hs : '$' ∉ p.salt.data) (hd : '$' ∉ p.hash.data) :
    splitDollar (format_for_version p v).data =
      [[], v.tag.data, (padCost p.cost).data, p.salt.data ++ p.hash.data] := by
  have hv : '$' ∉ v.tag.data := by cases v <;> decide
  have hsd : '$' ∉ p.salt.data ++ p.hash.data := by
    intro h
    rcases List.mem_append.mp h with h | h
    · exact hs h
    · exact hd h
  unfold format_for_version
  rw [show ("$" ++ v.tag ++ "$" ++ padCost p.cost ++ "$" ++ p.salt ++ p.hash).data
      = '$' :: (v.tag.data ++ '$' :: ((padCost p.cost).data ++ '$' ::
        (p.salt.data ++ p.hash.data))) by
    simp [string_data_append, List.append_assoc]]
  rw [splitDollar_dollar, splitDollar_field _ _ hv,
    splitDollar_field _ _ (padCost_no_dollar p.cost), splitDollar_no_dollar _ hsd]

/-- Parsing a formatted SHA-512-crypt hash recovers its rounds, salt and
digest. -/
theorem parseSha512_format (r : Nat) (salt digest : String)
    (hs : '$' ∉ salt.data) (hd : '$' ∉ digest.data) :
    parseSha512 (sha512Format r salt digest) = some (r, salt, digest) := by
  unfold sha512Format
  by_cases hr : r = SHA512_DEFAULT_ROUNDS
  · rw [if_pos hr]
    unfold parseSha512
    rw [show ("$6$" ++ salt ++ "$" ++ digest).data
        = '$' :: ('6' :: ('$' :: (salt.data ++ '$' :: digest.data))) by
      simp [string_data_append, List.append_assoc]]
    rw [show ('6' :: ('$' :: (salt.data ++ '$' :: digest.data)))
        = ['6'] ++ '$' :: (salt.data ++ '$' :: digest.data) by simp]
    rw [splitDollar_dollar, splitDollar_field ['6'] _ (by decide),
      splitDollar_field _ _ hs, splitDollar_no_dollar _ hd]
    simp [string_mk_data, hr]
  · rw [if_neg hr]
    unfold parseSha512
    have hclause : '$' ∉ ['r', 'o', 'u', 'n', 'd', 's', '='] ++ natDigits r := by
      intro h
      rcases List.mem_append.mp h with h | h
      · exact absurd h (by decide)
      · exact natDigits_no_dollar r h
    rw [show ("$6$rounds=" ++ natToString r ++ "$" ++ salt ++ "$" ++ digest).data
        = '$' :: (['6'] ++ '$' :: ((['r', 'o', 'u', 'n', 'd', 's', '='] ++ natDigits r)
          ++ '$' :: (salt.data ++ '$' :: digest.data))) by
      simp [string_data_append, natToString, List.append_assoc]]
    rw [splitDollar_dollar, splitDollar_field ['6'] _ (by decide),
      splitDollar_field _ _ hclause, splitDollar_field _ _ hs,
      splitDollar_no_dollar _ hd]
    have htake : (['r', 'o', 'u', 'n', 'd', 's', '='] ++ natDigits r).take 7
        = ['r', 'o', 'u', 'n', 'd', 's', '='] := List.take_left' (by decide)
    have hdrop : (['r', 'o', 'u', 'n', 'd', 's', '='] ++ natDigits r).drop 7
        = natDigits r := List.drop_left' (by decide)
    simp [htake, hdrop, parseDigits_natDigits r, string_mk_data]

/-! ## The hashing dispatcher as a function

`hashPassword` is the password-to-hash part of `set_with` factored out: it
performs the same dispatch (including the recursive resolution of the
default/min variants) and returns the encrypted string or the propagated
error.  `set_with_eq` proves it characterizes `set_with`. -/

def hashPassword (pr : Prim) : Algo → String → Except HtpasswdError String
  | .Bcrypt cost, password =>
    match hash_with_result pr password cost with
    | .error e => .error (.BCrypt e)
    | .ok parts => .ok (format_for_version parts .TwoA)
  | .BCryptDefault, password => hashPassword pr (.Bcrypt DEFAULT_COST) password
  | .BcryptMinCost, password => hashPassword pr (.Bcrypt PWHASH_BCRYPT_MIN_COST) password
  | .Sha512 rounds, password =>
    match sha512_hash_with pr rounds password with
    | .error e => .error (.PwHash e)
    | .ok encrypted => .ok encrypted
  | .Sha512Default, password =>
    match sha512_hash pr password with
    | .error e => .error (.PwHash e)
    | .ok encrypted => .ok encrypted
  | .Sha512MinRounds, password => hashPassword pr (.Sha512 SHA512_MIN_ROUNDS) password
termination_by a _ => algoWeight a
decreasing_by all_goals simp [algoWeight]

/-- `set_with` hashes via the dispatcher and then performs the single
insert; an error leaves the table as it was. -/
theorem set_with_eq (pr : Prim) (t : Htpasswd) (a : Algo) (u p : String) :
    t.set_with pr a u p =
      match hashPassword pr a p with
      | .error e => (.error e, t)
      | .ok encrypted => (.ok (), ⟨indexInsert t.entries u encrypted⟩) := by
  cases a with
  | Bcrypt cost =>
    simp only [Htpasswd.set_with, hashPassword]
    cases hash_with_result pr p cost <;> rfl
  | BCryptDefault =>
    rw [show t.set_with pr .BCryptDefault u p
        = t.set_with pr (.Bcrypt DEFAULT_COST) u p by simp [Htpasswd.set_with]]
    rw [show hashPassword pr .BCryptDefault p
        = hashPassword pr (.Bcrypt DEFAULT_COST) p by simp [hashPassword]]
    simp only [Htpasswd.set_with, hashPassword]
    cases hash_with_result pr p DEFAULT_COST <;> rfl
  | BcryptMinCost =>
    rw [show t.set_with pr .BcryptMinCost u p
        = t.set_with pr (.Bcrypt PWHASH_BCRYPT_MIN_COST) u p by simp [Htpasswd.set_with]]
    rw [show hashPassword pr .BcryptMinCost p
        = hashPassword pr (.Bcrypt PWHASH_BCRYPT_MIN_COST) p by simp [hashPassword]]
    simp only [Htpasswd.set_with, hashPassword]
    cases hash_with_result pr p PWHASH_BCRYPT_MIN_COST <;> rfl
  | Sha512 rounds =>
    simp only [Htpasswd.set_with, hashPassword]
    cases sha512_hash_with pr rounds p <;> rfl
  | Sha512Default =>
    simp only [Htpasswd.set_with, hashPassword]
    cases sha512_hash pr p <;> rfl
  | Sha512MinRounds =>
    rw [show t.set_with pr .Sha512MinRounds u p
        = t.set_with pr (.Sha512 SHA512_MIN_ROUNDS) u p by simp [Htpasswd.set_with]]
    rw [show hashPassword pr .Sha512MinRounds p
        = hashPassword pr (.Sha512 SHA512_MIN_ROUNDS) p by simp [hashPassword]]
    simp only [Htpasswd.set_with, hashPassword]
    cases sha512_hash_with pr SHA512_MIN_ROUNDS p <;> rfl

/-- At the default round count the explicit-rounds entry point of the
SHA-512-crypt primitive coincides with its default entry point (the rounds
clause is omitted exactly when the default count is used). -/
theorem sha512_hash_with_default (pr : Prim) (p : String) :
    sha512_hash_with pr SHA512_DEFAULT_ROUNDS p = sha512_hash pr p := by
  unfold sha512_hash_with sha512_hash
  rw [if_neg (by simp only [SHA512_MIN_ROUNDS, SHA512_MAX_ROUNDS, SHA512_DEFAULT_ROUNDS]; omega)]

/-- The version tag and cost field of a modular-crypt hash string: the
second and third `$`-separated fields, the cost parsed as a decimal
number. -/
def bcryptFields (s : String) : Option (String × Option Nat) :=
  match splitDollar s.data with
  | [[], tag, costF, _rest] => some (⟨tag⟩, parseDigits costF)
  | _ => none

/-- The bcrypt cost a variant asks for, after resolving the default/min
variants to their constants. -/
def requestedCost : Algo → Option Nat
  | .Bcrypt c => some c
  | .BCryptDefault => some DEFAULT_COST
  | .BcryptMinCost => some PWHASH_BCRYPT_MIN_COST
  | _ => none

/-- The SHA-512-crypt rounds a variant asks for, after resolving the
default/min variants to their constants. -/
def requestedRounds : Algo → Option Nat
  | .Sha512 r => some r
  | .Sha512Default => some SHA512_DEFAULT_ROUNDS
  | .Sha512MinRounds => some SHA512_MIN_ROUNDS
  | _ => none

/-- The failure condition the spec states for `set_with`: the requested
cost is outside the bcrypt-accepted range, or the requested rounds are
outside the SHA-512-crypt-accepted range, or the primitive addressed by the
variant fails internally. -/
def hashingFailure (pr : Prim) (a : Algo) : Prop :=
  (∃ c, requestedCost a = some c ∧
    (c < BCRYPT_MIN_COST ∨ BCRYPT_MAX_COST < c ∨ pr.bcryptFail.isSome)) ∨
  (∃ r, requestedRounds a = some r ∧
    (r < SHA512_MIN_ROUNDS ∨ SHA512_MAX_ROUNDS < r ∨ pr.sha512Fail.isSome))

theorem hash_with_result_error_iff (pr : Prim) (p : String) (c : Nat) :
    (∃ e, hash_with_result pr p c = .error e) ↔
      c < BCRYPT_MIN_COST ∨ BCRYPT_MAX_COST < c ∨ pr.bcryptFail.isSome := by
  unfold hash_with_result
  cases hf : pr.bcryptFail with
  | some m =>
    constructor
    · exact fun _ => Or.inr (Or.inr rfl)
    · exact fun _ => ⟨.Internal m, rfl⟩
  | none =>
    by_cases hc : c < BCRYPT_MIN_COST ∨ BCRYPT_MAX_COST < c
    · rw [if_pos hc]
      constructor
      · intro _
        rcases hc with h | h
        · exact Or.inl h
        · exact Or.inr (Or.inl h)
      · exact fun _ => ⟨.CostNotAllowed c, rfl⟩
    · rw [if_neg hc]
      constructor
      · rintro ⟨e, he⟩
        cases he
      · rintro (h | h | h)
        · exact absurd (Or.inl h) hc
        · exact absurd (Or.inr h) hc
        · exact Bool.noConfusion h

theorem sha512_hash_with_error_iff (pr : Prim) (p : String) (r : Nat) :
    (∃ e, sha512_hash_with pr r p = .error e) ↔
      r < SHA512_MIN_ROUNDS ∨ SHA512_MAX_ROUNDS < r ∨ pr.sha512Fail.isSome := by
  unfold sha512_hash_with
  by_cases hr : r < SHA512_MIN_ROUNDS ∨ SHA512_MAX_ROUNDS < r
  · rw [if_pos hr]
    constructor
    · intro _
      rcases hr with h | h
      · exact Or.inl h
      · exact Or.inr (Or.inl h)
    · exact fun _ => ⟨.InvalidRounds, rfl⟩
  · rw [if_neg hr]
    cases hf : pr.sha512Fail with
    | some m =>
      constructor
      · exact fun _ => Or.inr (Or.inr rfl)
      · exact fun _ => ⟨.Internal m, rfl⟩
    | none =>
      constructor
      · rintro ⟨e, he⟩
        cases he
      · rintro (h | h | h)
        · exact absurd (Or.inl h) hr
        · exact absurd (Or.inr h) hr
        · exact Bool.noConfusion h

theorem sha512_hash_error_iff (pr : Prim) (p : String) :
    (∃ e, sha512_hash pr p = .error e) ↔ pr.sha512Fail.isSome := by
  unfold sha512_hash
  cases hf : pr.sha512Fail with
  | some m =>
    constructor
    · exact fun _ => rfl
    · exact fun _ => ⟨.Internal m, rfl⟩
  | none =>
    constructor
    · rintro ⟨e, he⟩
      cases he
    · intro h
      exact Bool.noConfusion h

/-- The dispatcher errs exactly under the spec's failure condition. -/
theorem hashPassword_error_iff (pr : Prim) (a : Algo) (p : String) :
    (∃ e, hashPassword pr a p = .error e) ↔ hashingFailure pr a := by
  cases a with
  | Bcrypt c =>
    simp only [hashPassword, hashingFailure, requestedCost, requestedRounds]
    rw [show (∃ e, (match hash_with_result pr p c with
        | .error e => Except.error (HtpasswdError.BCrypt e)
        | .ok parts => Except.ok (format_for_version parts .TwoA)) = Except.error e) ↔
        (∃ e, hash_with_result pr p c = .error e) by
      cases h : hash_with_result pr p c <;> simp [h]]
    rw [hash_with_result_error_iff pr p c]
    constructor
    · intro h
      exact Or.inl ⟨c, rfl, h⟩
    · rintro (⟨c', hc, hcond⟩ | ⟨r, hr, _⟩)
      · cases Option.some.inj hc
        exact hcond
      · exact absurd hr (by simp)
  | BCryptDefault =>
    simp only [hashPassword, hashingFailure, requestedCost, requestedRounds]
    have hrange : ¬(DEFAULT_COST < BCRYPT_MIN_COST ∨ BCRYPT_MAX_COST < DEFAULT_COST) := by
      simp only [DEFAULT_COST, BCRYPT_MIN_COST, BCRYPT_MAX_COST]; omega
    rw [show (∃ e, (match hash_with_result pr p DEFAULT_COST with
        | .error e => Except.error (HtpasswdError.BCrypt e)
        | .ok parts => Except.ok (format_for_version parts .TwoA)) = Except.error e) ↔
        (∃ e, hash_with_result pr p DEFAULT_COST = .error e) by
      cases h : hash_with_result pr p DEFAULT_COST <;> simp [h]]
    rw [hash_with_result_error_iff pr p DEFAULT_COST]
    constructor
    · intro h
      exact Or.inl ⟨DEFAULT_COST, rfl, by tauto⟩
    · rintro (⟨c, hc, hcond⟩ | ⟨r, hr, _⟩)
      · cases Option.some.inj hc
        tauto
      · exact absurd hr (by simp)
  | BcryptMinCost =>
    simp only [hashPassword, hashingFailure, requestedCost, requestedRounds]
    rw [show (∃ e, (match hash_with_result pr p PWHASH_BCRYPT_MIN_COST with
        | .error e => Except.error (HtpasswdError.BCrypt e)
        | .ok parts => Except.ok (format_for_version parts .TwoA)) = Except.error e) ↔
        (∃ e, hash_with_result pr p PWHASH_BCRYPT_MIN_COST = .error e) by
      cases h : hash_with_result pr p PWHASH_BCRYPT_MIN_COST <;> simp [h]]
    rw [hash_with_result_error_iff pr p PWHASH_BCRYPT_MIN_COST]
    constructor
    · intro h
      refine Or.inl ⟨PWHASH_BCRYPT_MIN_COST, rfl, ?_⟩
      rcases h with h | h | h
      · exact absurd h (by simp [PWHASH_BCRYPT_MIN_COST, BCRYPT_MIN_COST])
      · exact absurd h (by simp [PWHASH_BCRYPT_MIN_COST, BCRYPT_MAX_COST])
      · tauto
    · rintro (⟨c, hc, hcond⟩ | ⟨r, hr, _⟩)
      · cases Option.some.inj hc
        tauto
      · exact absurd hr (by simp)
  | Sha512 r =>
    simp only [hashPassword, hashingFailure, requestedCost, requestedRounds]
    rw [show (∃ e, (match sha512_hash_with pr r p with
        | .error e => Except.error (HtpasswdError.PwHash e)
        | .ok s => Except.ok s) = Except.error e) ↔
        (∃ e, sha512_hash_with pr r p = .error e) by
      cases h : sha512_hash_with pr r p <;> simp [h]]
    rw [sha512_hash_with_error_iff pr p r]
    constructor
    · intro h
      exact Or.inr ⟨r, rfl, h⟩
    · rintro (⟨c, hc, _⟩ | ⟨r', hr, hcond⟩)
      · exact absurd hc (by simp)
      · cases Option.some.inj hr
        exact hcond
  | Sha512Default =>
    simp only [hashPassword, hashingFailure, requestedCost, requestedRounds]
    rw [show (∃ e, (match sha512_hash pr p with
        | .error e => Except.error (HtpasswdError.PwHash e)
        | .ok s => Except.ok s) = Except.error e) ↔
        (∃ e, sha512_hash pr p = .error e) by
      cases h : sha512_hash pr p <;> simp [h]]
    rw [sha512_hash_error_iff pr p]
    constructor
    · intro h
      refine Or.inr ⟨SHA512_DEFAULT_ROUNDS, rfl, ?_⟩
      tauto
    · rintro (⟨c, hc, _⟩ | ⟨r, hr, hcond⟩)
      · exact absurd hc (by simp)
      · cases Option.some.inj hr
        rcases hcond with h | h | h
        · exact absurd h (by simp [SHA512_DEFAULT_ROUNDS, SHA512_MIN_ROUNDS])
        · exact absurd h (by simp [SHA512_DEFAULT_ROUNDS, SHA512_MAX_ROUNDS])
        · exact h
  | Sha512MinRounds =>
    simp only [hashPassword, hashingFailure, requestedCost, requestedRounds]
    rw [show (∃ e, (match sha512_hash_with pr SHA512_MIN_ROUNDS p with
        | .error e => Except.error (HtpasswdError.PwHash e)
        | .ok s => Except.ok s) = Except.error e) ↔
        (∃ e, sha512_hash_with pr SHA512_MIN_ROUNDS p = .error e) by
      cases h : sha512_hash_with pr SHA512_MIN_ROUNDS p <;> simp [h]]
    rw [sha512_hash_with_error_iff pr p SHA512_MIN_ROUNDS]
    constructor
    · intro h
      refine Or.inr ⟨SHA512_MIN_ROUNDS, rfl, ?_⟩
      rcases h with h | h | h
      · exact absurd h (by simp)
      · exact absurd h (by simp [SHA512_MIN_ROUNDS, SHA512_MAX_ROUNDS])
      · tauto
    · rintro (⟨c, hc, _⟩ | ⟨r, hr, hcond⟩)
      · exact absurd hc (by simp)
      · cases Option.some.inj hr
        tauto

/-! ## Concrete environments used by the witnesses -/

/-- A concrete, well-formed primitive environment: fixed salts and digests,
no internal failures; the SHA-512 digest distinguishes the password `b`
from every other password. -/
def prw : Prim :=
  ⟨"SALT", "DIGEST", none, "abc", fun _ _ p => if p = "b" then "x" else "y", none⟩

theorem prw_wf : Prim.wf prw := by
  refine ⟨by decide, by decide, by decide, ?_⟩
  intro r s p
  show '$' ∉ (if p = "b" then "x" else "y").data
  by_cases h : p = "b"
  · rw [if_pos h]; decide
  · rw [if_neg h]; decide

/-- A filesystem on which every write fails with a permission error. -/
def fsDenied : FileSystem :=
  ⟨[], fun _ => some "permission denied"⟩

/-- A filesystem on which every write succeeds. -/
def fsOk : FileSystem :=
  ⟨[], fun _ => none⟩

/-! ## The claims -/

/-- C1: serializing a table — `to_string`, and the content handed to the
single write of `write_to_path` — produces, for each entry in table order,
the line `username` + `:` + `hash` + newline, concatenated with no header,
footer or trailing content beyond the per-line newline; an empty table
serializes to the empty string. -/
theorem claim_c1_serialization :
    (∀ t : Htpasswd, t.toString = specSerialize t) ∧
    Htpasswd.new.toString = "" ∧
    (∀ (t : Htpasswd) (fs : FileSystem) (path : String),
      (write_to_path t fs path).events = [IoEvent.fileWrite path (specSerialize t)]) := by
  refine ⟨toString_eq_specSerialize, rfl, ?_⟩
  intro t fs path
  unfold write_to_path fsWrite
  rw [← toString_eq_specSerialize]
  cases fs.failure path <;> rfl

/-- C3: `set` is exactly `set_with` at the default algorithm (bcrypt at the
library-default cost), and each default/min variant behaves exactly as the
corresponding fully-specified variant (`Bcrypt` with the resolved cost,
`Sha512` with the resolved rounds), so each algorithm family has a single
hashing behavior. -/
theorem claim_c3_default_resolution :
    (∀ (pr : Prim) (t : Htpasswd) (u p : String),
      t.set pr u p = t.set_with pr .BCryptDefault u p) ∧
    (∀ (pr : Prim) (t : Htpasswd) (u p : String),
      t.set_with pr .BCryptDefault u p = t.set_with pr (.Bcrypt DEFAULT_COST) u p) ∧
    (∀ (pr : Prim) (t : Htpasswd) (u p : String),
      t.set_with pr .BcryptMinCost u p = t.set_with pr (.Bcrypt PWHASH_BCRYPT_MIN_COST) u p) ∧
    (∀ (pr : Prim) (t : Htpasswd) (u p : String),
      t.set_with pr .Sha512MinRounds u p = t.set_with pr (.Sha512 SHA512_MIN_ROUNDS) u p) ∧
    (∀ (pr : Prim) (t : Htpasswd) (u p : String),
      t.set_with pr .Sha512Default u p = t.set_with pr (.Sha512 SHA512_DEFAULT_ROUNDS) u p) := by
  refine ⟨fun pr t u p => rfl, ?_, ?_, ?_, ?_⟩
  · intro pr t u p
    simp [Htpasswd.set_with]
  · intro pr t u p
    simp [Htpasswd.set_with]
  · intro pr t u p
    simp [Htpasswd.set_with]
  · intro pr t u p
    rw [show t.set_with pr .Sha512Default u p
        = (match sha512_hash pr p with
          | .error e => (Except.error (HtpasswdError.PwHash e), t)
          | .ok encrypted => (Except.ok (), ⟨indexInsert t.entries u encrypted⟩))
      by simp [Htpasswd.set_with]]
    rw [show t.set_with pr (.Sha512 SHA512_DEFAULT_ROUNDS) u p
        = (match sha512_hash_with pr SHA512_DEFAULT_ROUNDS p with
          | .error e => (Except.error (HtpasswdError.PwHash e), t)
          | .ok encrypted => (Except.ok (), ⟨indexInsert t.entries u encrypted⟩))
      by simp [Htpasswd.set_with]]
    rw [sha512_hash_with_default pr p]

/-- C5: when `set_with` (or `set`) returns an error, the table is left
exactly as it was: nothing is added, changed or removed. -/
theorem claim_c5_error_frame :
    (∀ (pr : Prim) (t : Htpasswd) (a : Algo) (u p : String) (e : HtpasswdError),
      (t.set_with pr a u p).1 = .error e → (t.set_with pr a u p).2 = t) ∧
    (∀ (pr : Prim) (t : Htpasswd) (u p : String) (e : HtpasswdError),
      (t.set pr u p).1 = .error e → (t.set pr u p).2 = t) := by
  have main : ∀ (pr : Prim) (t : Htpasswd) (a : Algo) (u p : String) (e : HtpasswdError),
      (t.set_with pr a u p).1 = .error e → (t.set_with pr a u p).2 = t := by
    intro pr t a u p e h
    rw [set_with_eq] at h ⊢
    cases hh : hashPassword pr a p with
    | error e' => rfl
    | ok v =>
      rw [hh] at h
      simp at h
  exact ⟨main, fun pr t u p e h => main pr t .BCryptDefault u p e h⟩

/-- C5 witness: a bcrypt cost outside the accepted range errs and leaves a
concrete table untouched. -/
theorem claim_c5_witness :
    ((⟨[("z", "h")]⟩ : Htpasswd).set_with prw (.Bcrypt 99) "u" "p").2 = ⟨[("z", "h")]⟩ :=
  claim_c5_error_frame.1 prw ⟨[("z", "h")]⟩ (.Bcrypt 99) "u" "p"
    (.BCrypt (.CostNotAllowed 99))
    (by rw [set_with_eq]
        rw [show hashPassword prw (.Bcrypt 99) "p"
            = .error (.BCrypt (.CostNotAllowed 99)) by
          simp [hashPassword, hash_with_result, prw, BCRYPT_MIN_COST, BCRYPT_MAX_COST]])

/-- C2: for every username, password and bcrypt-accepted cost, a successful
`set_with (Bcrypt cost)` stores the hash formatted explicitly for version
`2a`; the stored string's version-tag field is `2a` and its cost field
parses back to exactly the requested cost. -/
theorem claim_c2_bcrypt_2a_cost (pr : Prim) (t : Htpasswd) (cost : Nat) (u p : String)
    (hwf : Prim.wf pr) (hfail : pr.bcryptFail = none)
    (hmin : BCRYPT_MIN_COST ≤ cost) (hmax : cost ≤ BCRYPT_MAX_COST) :
    (t.set_with pr (.Bcrypt cost) u p).1 = .ok () ∧
    indexGet? (t.set_with pr (.Bcrypt cost) u p).2.entries u =
      some (format_for_version ⟨cost, pr.bcryptSalt, pr.bcryptDigest⟩ .TwoA) ∧
    bcryptFields (format_for_version ⟨cost, pr.bcryptSalt, pr.bcryptDigest⟩ .TwoA) =
      some ("2a", some cost) := by
  have hrange : ¬(cost < BCRYPT_MIN_COST ∨ BCRYPT_MAX_COST < cost) := by
    simp only [BCRYPT_MIN_COST, BCRYPT_MAX_COST] at *
    omega
  have hres : hash_with_result pr p cost = .ok ⟨cost, pr.bcryptSalt, pr.bcryptDigest⟩ := by
    simp only [hash_with_result, hfail]
    rw [if_neg hrange]
  refine ⟨?_, ?_, ?_⟩
  · simp [Htpasswd.set_with, hres]
  · simp [Htpasswd.set_with, hres, indexInsert_get_self]
  · unfold bcryptFields
    rw [splitDollar_format_for_version ⟨cost, pr.bcryptSalt, pr.bcryptDigest⟩ .TwoA
      hwf.1 hwf.2.1]
    show some ((⟨(Version.tag Version.TwoA).data⟩ : String), parseDigits (padCost cost).data)
      = some ("2a", some cost)
    rw [string_mk_data, parseDigits_padCost]
    rfl

/-- C2 witness: cost 10 under the concrete environment. -/
theorem claim_c2_witness :
    (Htpasswd.new.set_with prw (.Bcrypt 10) "u" "p").1 = .ok () ∧
    indexGet? (Htpasswd.new.set_with prw (.Bcrypt 10) "u" "p").2.entries "u" =
      some (format_for_version ⟨10, prw.bcryptSalt, prw.bcryptDigest⟩ .TwoA) ∧
    bcryptFields (format_for_version ⟨10, prw.bcryptSalt, prw.bcryptDigest⟩ .TwoA) =
      some ("2a", some 10) :=
  claim_c2_bcrypt_2a_cost prw Htpasswd.new 10 "u" "p" prw_wf rfl (by decide) (by decide)

/-- C4: every reachable table has pairwise distinct usernames, and a
successful re-set of a present username stores the newly computed hash for
it while leaving the username column unchanged — no second entry appears. -/
theorem claim_c4_nodup_replace :
    (∀ t : Htpasswd, Reachable t → (t.entries.map Prod.fst).Nodup) ∧
    (∀ (pr : Prim) (t : Htpasswd) (a : Algo) (u p : String),
      u ∈ t.entries.map Prod.fst →
      (t.set_with pr a u p).1 = .ok () →
      ∃ encrypted, hashPassword pr a p = .ok encrypted ∧
        (t.set_with pr a u p).2.entries.map Prod.fst = t.entries.map Prod.fst ∧
        indexGet? (t.set_with pr a u p).2.entries u = some encrypted) := by
  constructor
  · intro t ht
    induction ht with
    | new => simp [Htpasswd.new]
    | step pr a u p ht ih =>
      rw [set_with_eq]
      cases hh : hashPassword pr a p with
      | error e => exact ih
      | ok v => exact indexInsert_nodup_keys _ u v ih
  · intro pr t a u p hmem hok
    rw [set_with_eq] at hok ⊢
    cases hh : hashPassword pr a p with
    | error e =>
      rw [hh] at hok
      simp at hok
    | ok v =>
      refine ⟨v, rfl, ?_, ?_⟩
      · show (indexInsert t.entries u v).map Prod.fst = t.entries.map Prod.fst
        rw [indexInsert_keys, if_pos hmem]
      · show indexGet? (indexInsert t.entries u v) u = some v
        exact indexInsert_get_self t.entries u v

/-- C4 witness: the empty table is reachable with distinct usernames, and
re-setting the present username of a concrete one-entry table succeeds and
replaces its hash without a second entry. -/
theorem claim_c4_witness :
    (Htpasswd.new.entries.map Prod.fst).Nodup ∧
    (∃ encrypted, hashPassword prw (.Bcrypt 4) "p" = .ok encrypted ∧
      ((⟨[("u", "h")]⟩ : Htpasswd).set_with prw (.Bcrypt 4) "u" "p").2.entries.map Prod.fst
        = (⟨[("u", "h")]⟩ : Htpasswd).entries.map Prod.fst ∧
      indexGet? ((⟨[("u", "h")]⟩ : Htpasswd).set_with prw (.Bcrypt 4) "u" "p").2.entries "u"
        = some encrypted) :=
  ⟨claim_c4_nodup_replace.1 Htpasswd.new Reachable.new,
    claim_c4_nodup_replace.2 prw ⟨[("u", "h")]⟩ (.Bcrypt 4) "u" "p" (by decide)
      (by rw [set_with_eq]
          rw [show hashPassword prw (.Bcrypt 4) "p"
              = .ok (format_for_version ⟨4, prw.bcryptSalt, prw.bcryptDigest⟩ .TwoA) by
            simp [hashPassword, hash_with_result, prw, BCRYPT_MIN_COST, BCRYPT_MAX_COST]])⟩

/-- C6: `set_with` fails — with the library's hashing error — exactly when
the requested bcrypt cost is outside the bcrypt-accepted range, or the
requested SHA-512-crypt rounds are outside the accepted range, or the
addressed primitive fails internally; in every other case it succeeds. -/
theorem claim_c6_failure_characterization (pr : Prim) (t : Htpasswd) (a : Algo)
    (u p : String) :
    ((∃ e, (t.set_with pr a u p).1 = .error e) ↔ hashingFailure pr a) ∧
    ((t.set_with pr a u p).1 = .ok () ↔ ¬ hashingFailure pr a) := by
  have herr : (∃ e, (t.set_with pr a u p).1 = .error e) ↔ hashingFailure pr a := by
    rw [set_with_eq, ← hashPassword_error_iff pr a p]
    cases hh : hashPassword pr a p with
    | error e => simp
    | ok v => simp
  refine ⟨herr, ?_⟩
  rw [← herr, set_with_eq]
  cases hh : hashPassword pr a p with
  | error e => simp
  | ok v => simp

theorem sha512_hash_with_ok (pr : Prim) (r : Nat) (p : String)
    (hfail : pr.sha512Fail = none)
    (hmin : SHA512_MIN_ROUNDS ≤ r) (hmax : r ≤ SHA512_MAX_ROUNDS) :
    sha512_hash_with pr r p =
      .ok (sha512Format r pr.sha512Salt (pr.sha512Digest r pr.sha512Salt p)) := by
  simp only [sha512_hash_with, hfail]
  rw [if_neg (by omega)]

theorem sha512_hash_ok (pr : Prim) (p : String) (hfail : pr.sha512Fail = none) :
    sha512_hash pr p =
      .ok (sha512Format SHA512_DEFAULT_ROUNDS pr.sha512Salt
        (pr.sha512Digest SHA512_DEFAULT_ROUNDS pr.sha512Salt p)) := by
  simp only [sha512_hash, hfail]

theorem sha512_verify_format (pr : Prim) (r : Nat) (salt p w : String)
    (hs : '$' ∉ salt.data) (hd : '$' ∉ (pr.sha512Digest r salt p).data) :
    sha512_verify pr w (sha512Format r salt (pr.sha512Digest r salt p)) =
      (pr.sha512Digest r salt p == pr.sha512Digest r salt w) := by
  unfold sha512_verify
  rw [parseSha512_format r salt (pr.sha512Digest r salt p) hs hd]

/-- The table left by a successful explicit-rounds SHA-512-crypt `set_with`. -/
theorem set_with_sha512_entries (pr : Prim) (t : Htpasswd) (r : Nat) (u p : String)
    (hfail : pr.sha512Fail = none)
    (hmin : SHA512_MIN_ROUNDS ≤ r) (hmax : r ≤ SHA512_MAX_ROUNDS) :
    (t.set_with pr (.Sha512 r) u p).2.entries =
      indexInsert t.entries u
        (sha512Format r pr.sha512Salt (pr.sha512Digest r pr.sha512Salt p)) := by
  rw [set_with_eq]
  rw [show hashPassword pr (.Sha512 r) p
      = .ok (sha512Format r pr.sha512Salt (pr.sha512Digest r pr.sha512Salt p)) by
    simp only [hashPassword]
    rw [sha512_hash_with_ok pr r p hfail hmin hmax]]

/-- C7: an entry created through any SHA-512-crypt variant verifies with
the correct password and rejects a wrong one (the primitive's digests for
the two passwords being distinct), and verification of a username that is
not in the table is `false` — a defined outcome, not an error. -/
theorem claim_c7_verify :
    (∀ (pr : Prim) (t : Htpasswd) (r : Nat) (u p : String),
      Prim.wf pr → pr.sha512Fail = none →
      SHA512_MIN_ROUNDS ≤ r → r ≤ SHA512_MAX_ROUNDS →
      Htpasswd.verify pr (t.set_with pr (.Sha512 r) u p).2 u p = true) ∧
    (∀ (pr : Prim) (t : Htpasswd) (u p : String),
      Prim.wf pr → pr.sha512Fail = none →
      Htpasswd.verify pr (t.set_with pr .Sha512Default u p).2 u p = true) ∧
    (∀ (pr : Prim) (t : Htpasswd) (u p : String),
      Prim.wf pr → pr.sha512Fail = none →
      Htpasswd.verify pr (t.set_with pr .Sha512MinRounds u p).2 u p = true) ∧
    (∀ (pr : Prim) (t : Htpasswd) (r : Nat) (u p w : String),
      Prim.wf pr → pr.sha512Fail = none →
      SHA512_MIN_ROUNDS ≤ r → r ≤ SHA512_MAX_ROUNDS →
      pr.sha512Digest r pr.sha512Salt p ≠ pr.sha512Digest r pr.sha512Salt w →
      Htpasswd.verify pr (t.set_with pr (.Sha512 r) u p).2 u w = false) ∧
    (∀ (pr : Prim) (t : Htpasswd) (u w : String),
      indexGet? t.entries u = none → Htpasswd.verify pr t u w = false) := by
  have hcore : ∀ (pr : Prim) (t : Htpasswd) (r : Nat) (u p w : String),
      Prim.wf pr → pr.sha512Fail = none →
      SHA512_MIN_ROUNDS ≤ r → r ≤ SHA512_MAX_ROUNDS →
      Htpasswd.verify pr (t.set_with pr (.Sha512 r) u p).2 u w =
        (pr.sha512Digest r pr.sha512Salt p == pr.sha512Digest r pr.sha512Salt w) := by
    intro pr t r u p w hwf hfail hmin hmax
    unfold Htpasswd.verify
    rw [set_with_sha512_entries pr t r u p hfail hmin hmax, indexInsert_get_self]
    exact sha512_verify_format pr r pr.sha512Salt p w hwf.2.2.1
      (hwf.2.2.2 r pr.sha512Salt p)
  have hdefault : ∀ (pr : Prim) (t : Htpasswd) (u p w : String),
      Prim.wf pr → pr.sha512Fail = none →
      Htpasswd.verify pr (t.set_with pr .Sha512Default u p).2 u w =
        (pr.sha512Digest SHA512_DEFAULT_ROUNDS pr.sha512Salt p ==
          pr.sha512Digest SHA512_DEFAULT_ROUNDS pr.sha512Salt w) := by
    intro pr t u p w hwf hfail
    unfold Htpasswd.verify
    rw [show (t.set_with pr .Sha512Default u p).2.entries
        = indexInsert t.entries u
          (sha512Format SHA512_DEFAULT_ROUNDS pr.sha512Salt
            (pr.sha512Digest SHA512_DEFAULT_ROUNDS pr.sha512Salt p)) by
      rw [set_with_eq]
      rw [show hashPassword pr .Sha512Default p
          = .ok (sha512Format SHA512_DEFAULT_ROUNDS pr.sha512Salt
            (pr.sha512Digest SHA512_DEFAULT_ROUNDS pr.sha512Salt p)) by
        simp only [hashPassword]
        rw [sha512_hash_ok pr p hfail]]]
    rw [indexInsert_get_self]
    exact sha512_verify_format pr SHA512_DEFAULT_ROUNDS pr.sha512Salt p w hwf.2.2.1
      (hwf.2.2.2 SHA512_DEFAULT_ROUNDS pr.sha512Salt p)
  have hminrounds : ∀ (pr : Prim) (t : Htpasswd) (u p w : String),
      Prim.wf pr → pr.sha512Fail = none →
      Htpasswd.verify pr (t.set_with pr .Sha512MinRounds u p).2 u w =
        (pr.sha512Digest SHA512_MIN_ROUNDS pr.sha512Salt p ==
          pr.sha512Digest SHA512_MIN_ROUNDS pr.sha512Salt w) := by
    intro pr t u p w hwf hfail
    rw [show t.set_with pr .Sha512MinRounds u p
        = t.set_with pr (.Sha512 SHA512_MIN_ROUNDS) u p by simp [Htpasswd.set_with]]
    exact hcore pr t SHA512_MIN_ROUNDS u p w hwf hfail (le_refl _)
      (by simp only [SHA512_MIN_ROUNDS, SHA512_MAX_ROUNDS]; omega)
  refine ⟨?_, ?_, ?_, ?_, ?_⟩
  · intro pr t r u p hwf hfail hmin hmax
    rw [hcore pr t r u p p hwf hfail hmin hmax]
    exact beq_self_eq_true _
  · intro pr t u p hwf hfail
    rw [hdefault pr t u p p hwf hfail]
    exact beq_self_eq_true _
  · intro pr t u p hwf hfail
    rw [hminrounds pr t u p p hwf hfail]
    exact beq_self_eq_true _
  · intro pr t r u p w hwf hfail hmin hmax hne
    rw [hcore pr t r u p w hwf hfail hmin hmax]
    exact beq_eq_false_iff_ne.mpr hne
  · intro pr t u w hnone
    unfold Htpasswd.verify
    rw [hnone]

/-- C7 witness: a concrete SHA-512-crypt entry at the minimum rounds
verifies its password, rejects a wrong one, and an absent username is
rejected. -/
theorem claim_c7_witness :
    Htpasswd.verify prw (Htpasswd.new.set_with prw (.Sha512 1000) "a" "b").2 "a" "b" = true ∧
    Htpasswd.verify prw (Htpasswd.new.set_with prw (.Sha512 1000) "a" "b").2 "a" "c" = false ∧
    Htpasswd.verify prw Htpasswd.new "nobody" "pw" = false :=
  ⟨claim_c7_verify.1 prw Htpasswd.new 1000 "a" "b" prw_wf rfl (by decide) (by decide),
   claim_c7_verify.2.2.2.1 prw Htpasswd.new 1000 "a" "b" "c" prw_wf rfl (by decide) (by decide)
     (by show ¬(if ("b" : String) = "b" then "x" else "y")
           = (if ("c" : String) = "b" then "x" else "y")
         decide),
   claim_c7_verify.2.2.2.2 prw Htpasswd.new "nobody" "pw" rfl⟩

/-- C8: `set` and `set_with` change the table only — the filesystem is
untouched and no I/O event occurs; `write_to_path` performs exactly one
file write (of the serialized table, also when the write fails) and never
modifies the table, in particular not on an I/O error. -/
theorem claim_c8_effects :
    (∀ (pr : Prim) (t : Htpasswd) (fs : FileSystem) (a : Algo) (u p : String),
      (set_withFS pr t fs a u p).fs = fs ∧ (set_withFS pr t fs a u p).events = []) ∧
    (∀ (pr : Prim) (t : Htpasswd) (fs : FileSystem) (u p : String),
      (setFS pr t fs u p).fs = fs ∧ (setFS pr t fs u p).events = []) ∧
    (∀ (t : Htpasswd) (fs : FileSystem) (path : String),
      (write_to_path t fs path).events = [IoEvent.fileWrite path t.toString] ∧
      (write_to_path t fs path).table = t) ∧
    (∀ (t : Htpasswd) (fs : FileSystem) (path m : String),
      fs.failure path = some m →
      (write_to_path t fs path).result = .error ⟨m⟩ ∧
      (write_to_path t fs path).fs = fs ∧ (write_to_path t fs path).table = t) := by
  refine ⟨fun pr t fs a u p => ⟨rfl, rfl⟩, fun pr t fs u p => ⟨rfl, rfl⟩, ?_, ?_⟩
  · intro t fs path
    unfold write_to_path fsWrite
    cases fs.failure path <;> exact ⟨rfl, rfl⟩
  · intro t fs path m h
    unfold write_to_path fsWrite
    rw [h]
    exact ⟨rfl, rfl, rfl⟩

/-- C8 witness: on a filesystem denying every write, `write_to_path`
surfaces the I/O error and leaves both table and filesystem unchanged. -/
theorem claim_c8_witness :
    (write_to_path ⟨[("u", "h")]⟩ fsDenied "www").result = .error ⟨"permission denied"⟩ ∧
    (write_to_path ⟨[("u", "h")]⟩ fsDenied "www").fs = fsDenied ∧
    (write_to_path ⟨[("u", "h")]⟩ fsDenied "www").table = ⟨[("u", "h")]⟩ :=
  claim_c8_effects.2.2.2 ⟨[("u", "h")]⟩ fsDenied "www" "permission denied" rfl

/-- C9 counterexample: the library's error enum has no variant wrapping an
I/O failure — every one of its values wraps a hashing-library failure, so
the enum is not a hashing-variant-plus-I/O-variant pair as claimed
(`write_to_path` surfaces the I/O error type directly instead). -/
theorem claim_c9_counterexample :
    ¬ ∃ e : HtpasswdError, (∀ b, e ≠ HtpasswdError.BCrypt b) ∧
      (∀ q, e ≠ HtpasswdError.PwHash q) := by
  rintro ⟨e, hb, hq⟩
  cases e with
  | BCrypt b => exact hb b rfl
  | PwHash q => exact hq q rfl

/-- C9 amended: every value of the library's error enum wraps a
hashing-library failure and retains the underlying error's message; an I/O
failure is not represented in this enum — `write_to_path` surfaces the I/O
error type directly, retaining its message. -/
theorem claim_c9_amended :
    (∀ e : HtpasswdError,
      (∃ b, e = HtpasswdError.BCrypt b) ∨ (∃ q, e = HtpasswdError.PwHash q)) ∧
    (∀ b : BcryptError, (HtpasswdError.BCrypt b).message = "Bcrypt error: " ++ b.message) ∧
    (∀ q : PwHashError,
      (HtpasswdError.PwHash q).message = "Password hash error: " ++ q.message) ∧
    (∀ (t : Htpasswd) (fs : FileSystem) (path m : String),
      fs.failure path = some m → (write_to_path t fs path).result = .error ⟨m⟩) := by
  refine ⟨?_, fun b => rfl, fun q => rfl, ?_⟩
  · intro e
    cases e with
    | BCrypt b => exact Or.inl ⟨b, rfl⟩
    | PwHash q => exact Or.inr ⟨q, rfl⟩
  · intro t fs path m h
    unfold write_to_path fsWrite
    rw [h]

/-- C9 witness: a concrete denied write surfaces the I/O message unchanged. -/
theorem claim_c9_witness :
    (write_to_path Htpasswd.new fsDenied "www").result = .error ⟨"permission denied"⟩ :=
  claim_c9_amended.2.2.2 Htpasswd.new fsDenied "www" "permission denied" rfl

/-- C10: a successful re-set of a present username rewrites exactly that
entry in place — the resulting entry list is the original one with only
that username's hash replaced, so the entry keeps its original position
in iteration (and serialization) order. -/
theorem claim_c10_position (pr : Prim) (t : Htpasswd) (a : Algo) (u p : String)
    (hnd : (t.entries.map Prod.fst).Nodup)
    (hmem : u ∈ t.entries.map Prod.fst)
    (hok : (t.set_with pr a u p).1 = .ok ()) :
    ∃ encrypted, hashPassword pr a p = .ok encrypted ∧
      (t.set_with pr a u p).2.entries =
        t.entries.map (fun e => if e.1 = u then (e.1, encrypted) else e) := by
  rw [set_with_eq] at hok ⊢
  cases hh : hashPassword pr a p with
  | error e =>
    rw [hh] at hok
    simp at hok
  | ok v =>
    refine ⟨v, rfl, ?_⟩
    show indexInsert t.entries u v = _
    exact indexInsert_of_mem t.entries u v hnd hmem

/-- C10 witness: re-setting the middle entry of a concrete three-entry
table keeps it in the middle. -/
theorem claim_c10_witness :
    ∃ encrypted, hashPassword prw (.Bcrypt 4) "p" = .ok encrypted ∧
      ((⟨[("a", "h1"), ("u", "h2"), ("z", "h3")]⟩ : Htpasswd).set_with
          prw (.Bcrypt 4) "u" "p").2.entries =
        [("a", "h1"), ("u", "h2"), ("z", "h3")].map
          (fun e => if e.1 = "u" then (e.1, encrypted) else e) :=
  claim_c10_position prw ⟨[("a", "h1"), ("u", "h2"), ("z", "h3")]⟩ (.Bcrypt 4) "u" "p"
    (by decide) (by decide)
    (by rw [set_with_eq]
        rw [show hashPassword prw (.Bcrypt 4) "p"
            = .ok (format_for_version ⟨4, prw.bcryptSalt, prw.bcryptDigest⟩ .TwoA) by
          simp [hashPassword, hash_with_result, prw, BCRYPT_MIN_COST, BCRYPT_MAX_COST]])

end Passivized
